import Mathlib

/-!
Verification of the history store, URL validator and playback-process
controller of the YouTube player application (two parallel
implementations: `main.py` using tkinter and `src/main.py` using PyQt6).

Modelling conventions:
* Python `dict` objects preserve insertion order, so the history mapping
  (URL string to entry) is embedded as an association list
  `List (String × Entry)` in insertion order; inserting a fresh key
  appends at the end, updating an existing key rewrites the value in
  place without moving the key.
* Timestamps are `datetime.now().isoformat()` strings; `sorted` compares
  them lexicographically, which agrees with chronological order.  The
  embedding represents a timestamp by a natural number, ordered by `≤`
  (a strictly monotone view of the ISO strings); successive calls can
  produce equal timestamps, which the model keeps.
* `get_video_title` (tkinter variant only) is a pure function of the URL
  built on `urllib.parse`; no claim depends on its output, so the
  operations take an arbitrary `titleOf : String → Option String`
  parameter (`some ∘ get_video_title` for tkinter, `fun _ => none` for
  the Qt variant, which stores no title).
-/

namespace YTPlayer

/-- One value of the history mapping, as written by `add_to_history`:
`{'title': ..., 'timestamp': ..., 'play_count': ...}` in the tkinter
variant, the Qt variant omitting `'title'`. -/
structure Entry where
  title : Option String
  timestamp : Nat
  playCount : Nat
deriving Repr, DecidableEq

/-- The in-memory history mapping `self.history`, in key insertion order. -/
abbrev History := List (String × Entry)

/-- Keys of the mapping, in insertion order (`self.history.keys()`). -/
def histKeys (h : History) : List String := h.map Prod.fst

/-- Python `self.history[url]` / `url in self.history`. -/
def lookupEntry : History → String → Option Entry
  | [], _ => none
  | p :: rest, url => if p.1 = url then some p.2 else lookupEntry rest url

/-- Overwrite the value stored at `url`, keeping key order (Python
`self.history[url] = ...` on an existing key). -/
def updateEntry (h : History) (url : String) (e : Entry) : History :=
  h.map (fun p => if p.1 = url then (p.1, e) else p)

/-- Comparison used by `save_history`'s
`sorted(self.history.keys(), key=lambda x: self.history[x]['timestamp'])`,
lifted to the pairs of the association list. -/
def tsLE (p q : String × Entry) : Prop := p.2.timestamp ≤ q.2.timestamp

instance : DecidableRel tsLE := fun p q => Nat.decLe p.2.timestamp q.2.timestamp

instance : IsTotal (String × Entry) tsLE := ⟨fun p q => Nat.le_total p.2.timestamp q.2.timestamp⟩

instance : IsTrans (String × Entry) tsLE := ⟨fun _ _ _ h1 h2 => Nat.le_trans h1 h2⟩

/-- The eviction step of `save_history` (both variants, identical code):
if `len(self.history) > self.max_history`, sort the keys by timestamp
(Python's stable ascending sort, which `List.insertionSort` with a `≤`
comparison reproduces), take the first `len - max_history` of them and
delete those keys from the mapping. -/
def keysToRemove (maxH : Nat) (h : History) : List String :=
  ((h.insertionSort tsLE).take (h.length - maxH)).map Prod.fst

/-- Deleting the selected keys: `for key in keys_to_remove: del self.history[key]`. -/
def evictOldest (maxH : Nat) (h : History) : History :=
  if maxH < h.length then h.filter (fun p => decide (p.1 ∉ keysToRemove maxH h)) else h

/-- The persisted `history.json` file content: a JSON object mapping each
URL to an object of string and number fields (`json.dump` output). -/
inductive Json where
  | str : String → Json
  | num : Nat → Json
  | obj : List (String × Json) → Json
deriving Repr

/-- Serialize one entry the way `json.dump` writes the Python dict
(fields in insertion order: optional `title`, then `timestamp`,
then `play_count`). -/
def entryToJson (e : Entry) : Json :=
  .obj ((match e.title with
         | some t => [("title", .str t)]
         | none => []) ++
        [("timestamp", .num e.timestamp), ("play_count", .num e.playCount)])

/-- Serialize the whole mapping (`json.dump(self.history, f)`). -/
def historyToJson (h : History) : Json :=
  .obj (h.map (fun p => (p.1, entryToJson p.2)))

/-- Field access in a parsed JSON object. -/
def jsonField : List (String × Json) → String → Option Json
  | [], _ => none
  | p :: rest, k => if p.1 = k then some p.2 else jsonField rest k

/-- Decode one entry from the persisted file. -/
def entryOfJson : Json → Option Entry
  | .obj fs =>
    match jsonField fs "timestamp", jsonField fs "play_count" with
    | some (.num ts), some (.num pc) =>
      some { title := match jsonField fs "title" with
                      | some (.str t) => some t
                      | _ => none,
             timestamp := ts, playCount := pc }
    | _, _ => none
  | _ => none

/-- Decode the whole mapping from the persisted file. -/
def historyOfJson : Json → Option History
  | .obj fs => fs.mapM (fun p => (entryOfJson p.2).map (fun e => (p.1, e)))
  | _ => none

/-- Function `load_history` (both variants, identical code): if the file is
missing or unreadable (`none`, covering the bare `except: return {}`
and the missing-file path), return the empty mapping; otherwise return
the parsed mapping.  JSON text that parses but does not have the shape
`json.dump` produces for a history mapping is folded into the empty
result as well; no claim exercises such a file. -/
def load_history : Option Json → History
  | none => []
  | some j => (historyOfJson j).getD []

/-- Function `save_history` (both variants, identical code): evict the oldest
entries beyond `max_history`, then write the mapping to the file.
Returns the new in-memory mapping together with the file content. -/
def save_history (maxH : Nat) (h : History) : History × Json :=
  let h2 := evictOldest maxH h
  (h2, historyToJson h2)

/-- The `if url not in self.history ... else ...` update performed by
`add_to_history` before it calls `save_history`: a fresh URL is inserted
with `play_count = 1` and the current timestamp, an existing URL keeps
its position and title but gets `play_count + 1` and the current
timestamp. -/
def addEntryStep (now : Nat) (titleOf : String → Option String) (h : History) (url : String) : History :=
  match lookupEntry h url with
  | none => h ++ [(url, { title := titleOf url, timestamp := now, playCount := 1 })]
  | some e => updateEntry h url { title := e.title, timestamp := now, playCount := e.playCount + 1 }

/-- Function `add_to_history(url)`: the insert/update step followed by
`save_history` (which evicts and persists). -/
def add_to_history (now : Nat) (titleOf : String → Option String) (maxH : Nat)
    (h : History) (url : String) : History × Json :=
  save_history maxH (addEntryStep now titleOf h url)

/-- Function `clear_history` (confirmed branch): set `self.history = {}` and call
`save_history`. -/
def clear_history (maxH : Nat) : History × Json := save_history maxH []

/-! ## URL validator

`validate_url` runs `re.match` of five anchored patterns against the
candidate string; `re.match` succeeds exactly when some initial segment
of the string belongs to the pattern's language.  The patterns use only
literals, character classes, `?`, `+`, `*` and grouping, embedded here
as character-class regular expressions with standard language semantics
and a Brzozowski-derivative matcher.

Character classes: Python `\w` is embedded as ASCII letter, digit or
underscore and `\S` as non-whitespace (Python additionally treats
non-ASCII word/space characters accordingly; both sides of every theorem
below use the same class functions, so the restriction is uniform). -/

/-- Regular expressions over character classes. -/
inductive Re where
  | zero : Re
  | eps : Re
  | cls : (Char → Bool) → Re
  | cat : Re → Re → Re
  | alt : Re → Re → Re
  | star : Re → Re

/-- Does the language of `r` contain the empty string? -/
def Re.nullable : Re → Bool
  | .zero => false
  | .eps => true
  | .cls _ => false
  | .cat a b => a.nullable && b.nullable
  | .alt a b => a.nullable || b.nullable
  | .star _ => true

/-- Brzozowski derivative of `r` by the character `c`. -/
def Re.deriv : Re → Char → Re
  | .zero, _ => .zero
  | .eps, _ => .zero
  | .cls p, c => if p c then .eps else .zero
  | .cat a b, c =>
    if a.nullable then .alt (.cat (a.deriv c) b) (b.deriv c) else .cat (a.deriv c) b
  | .alt a b, c => .alt (a.deriv c) (b.deriv c)
  | .star a, c => .cat (a.deriv c) (.star a)

/-- Does some initial segment of `cs` belong to the language of `r`?
This is the acceptance test of Python's `re.match(pattern, s)` for an
anchored pattern: the match need not consume the whole string. -/
def Re.matchStart : Re → List Char → Bool
  | r, [] => r.nullable
  | r, c :: cs => r.nullable || (r.deriv c).matchStart cs

/-- Standard language semantics of `Re`, the specification against which
the derivative matcher is proved correct. -/
inductive Re.Matches : Re → List Char → Prop where
  | eps : Re.Matches .eps []
  | cls {p : Char → Bool} {c : Char} : p c = true → Re.Matches (.cls p) [c]
  | cat {a b : Re} {xs ys : List Char} :
      Re.Matches a xs → Re.Matches b ys → Re.Matches (.cat a b) (xs ++ ys)
  | altL {a b : Re} {xs : List Char} : Re.Matches a xs → Re.Matches (.alt a b) xs
  | altR {a b : Re} {xs : List Char} : Re.Matches b xs → Re.Matches (.alt a b) xs
  | starNil {a : Re} : Re.Matches (.star a) []
  | starCons {a : Re} {xs ys : List Char} :
      Re.Matches a xs → Re.Matches (.star a) ys → Re.Matches (.star a) (xs ++ ys)

/-- Literal text. -/
def litList : List Char → Re
  | [] => .eps
  | c :: cs => .cat (.cls (fun x => x == c)) (litList cs)

/-- Literal text from a string. -/
def lit (t : String) : Re := litList t.data

/-- Group `(r)?`. -/
def optRe (r : Re) : Re := .alt r .eps

/-- The class `[\w-]`. -/
def wordDash (c : Char) : Bool := c.isAlphanum || c == '_' || c == '-'

/-- The class `\S`. -/
def nonSpace (c : Char) : Bool := !c.isWhitespace

/-- Group `(<class>)+`. -/
def plusCls (p : Char → Bool) : Re := .cat (.cls p) (.star (.cls p))

/-- The group `(https?://)?` shared by all five patterns. -/
def schemeRe : Re := optRe (.cat (lit "http") (.cat (optRe (lit "s")) (lit "://")))

/-- The group `(www\.)?` shared by all five patterns. -/
def wwwRe : Re := optRe (lit "www.")

/-- Common body of the five patterns of `validate_url`:
`^(https?://)?(www\.)?(<head>[\w-]+(<ec>\S*)?)` where `<head>` is the
fixed shape text and `<ec>` is `&` or `?` introducing trailing query
parameters. -/
def shapeRe (head : String) (ec : Char) : Re :=
  .cat schemeRe (.cat wwwRe (.cat (lit head)
    (.cat (plusCls wordDash)
      (optRe (.cat (.cls (fun x => x == ec)) (.star (.cls nonSpace)))))))

/-- The five patterns of `validate_url` in `main.py` (tkinter variant),
in source order:
`youtube.com/watch\?v=[\w-]+(&\S*)?`, `youtu\.be/[\w-]+(\?\S*)?`,
`youtube\.com/shorts/[\w-]+(\?\S*)?`,
`youtube\.com/playlist\?list=[\w-]+(&\S*)?`,
`youtube\.com/live/[\w-]+(\?\S*)?`, each preceded by
`^(https?://)?(www\.)?`. -/
def patternsTk : List Re :=
  [shapeRe "youtube.com/watch?v=" '&',
   shapeRe "youtu.be/" '?',
   shapeRe "youtube.com/shorts/" '?',
   shapeRe "youtube.com/playlist?list=" '&',
   shapeRe "youtube.com/live/" '?']

/-- Function `validate_url` of `main.py` (tkinter variant):
`any(re.match(pattern, url) for pattern in patterns)`. -/
def validate_url (url : String) : Bool :=
  patternsTk.any (fun p => p.matchStart url.data)

/-- The five patterns of `validate_url` in `src/main.py` (Qt variant);
the pattern list is textually identical to the tkinter one. -/
def patternsQt : List Re :=
  [shapeRe "youtube.com/watch?v=" '&',
   shapeRe "youtu.be/" '?',
   shapeRe "youtube.com/shorts/" '?',
   shapeRe "youtube.com/playlist?list=" '&',
   shapeRe "youtube.com/live/" '?']

/-- Function `validate_url` of `src/main.py` (Qt variant). -/
def validate_url_qt (url : String) : Bool :=
  patternsQt.any (fun p => p.matchStart url.data)

/-- The five accepted link shapes as the spec lists them, each a fixed
head that must be followed by at least one video-id character. -/
def shapeHeads : List String :=
  ["youtube.com/watch?v=", "youtu.be/", "youtube.com/shorts/",
   "youtube.com/playlist?list=", "youtube.com/live/"]

/-- Stated from the words of claim C4: some initial segment of `s`
consists of an optional `http://` or `https://`, an optional `www.`,
the given shape head, and at least one word character; anything at all
may follow (trailing garbage accepted). -/
def SpecShape (head : String) (s : String) : Prop :=
  ∃ (sch ww id rest : List Char),
    (sch = [] ∨ sch = "http://".data ∨ sch = "https://".data) ∧
    (ww = [] ∨ ww = "www.".data) ∧
    id ≠ [] ∧ (∀ c ∈ id, wordDash c = true) ∧
    s.data = sch ++ ww ++ head.data ++ id ++ rest

/-- Stated from the words of claim C4 (the spec's description of the
validator), for comparison with the transcribed code: some initial
segment of `s` matches one of the five accepted link shapes. -/
def IsValidSpec (s : String) : Prop :=
  ∃ head ∈ shapeHeads, SpecShape head s

/-! ## Process controller

The playback process is an external OS process; its identity is the
handle `self.process`, embedded as `Option Nat`.  Outcomes of the
process-handle calls (`terminate` raising, `wait` timing out, `poll`
returning an exit code, `Popen` raising) are environment behaviour and
enter the model as parameters.  Each operation returns the new
application state together with the list of externally observable calls
it performed, in order. -/

/-- Externally observable calls of the controller. -/
inductive Action where
  | terminate (pid : Nat)
  | waitGrace (pid : Nat)
  | kill (pid : Nat)
  | spawn (cmd : List String)
  | logInfo
  | logWarn
  | logError
  | showError (msg : String)
deriving Repr, DecidableEq

/-- The mutable application state touched by the playback operations. -/
structure AppState where
  process : Option Nat
  history : History
  histFile : Option Json
  maxHistory : Nat
  urlInput : String
  fullscreen : Bool
  loopVideo : Bool
  isPlaying : Bool
  status : String

/-- Function `stop_video` of `main.py` (tkinter variant): if a process is
tracked, log, call `terminate()` and clear the handle — but the clearing
statement sits inside the `try`, so when `terminate()` raises
(`termRaises`) the handler only logs and the handle stays set.  There is
no grace wait and no kill in this variant.  In every case the UI is
reset to the not-playing state. -/
def stop_video_tk (termRaises : Bool) (s : AppState) : AppState × List Action :=
  match s.process with
  | some pid =>
    if termRaises then
      ({ s with isPlaying := false, status := "Ready" }, [.logInfo, .terminate pid, .logError])
    else
      ({ s with process := none, isPlaying := false, status := "Ready" },
       [.logInfo, .terminate pid])
  | none => ({ s with isPlaying := false, status := "Ready" }, [])

/-- Environment outcome of the Qt stop sequence
`terminate(); wait(timeout=5)` / `kill()`. -/
inductive StopOutcome where
  | exitsInGrace
  | timeoutThenKilled
  | terminateRaisesExn
  | killRaisesExn
deriving Repr, DecidableEq

/-- Function `stop_video` of `src/main.py` (Qt variant): if a process is tracked,
call `terminate()`, `wait(timeout=5)`, on `TimeoutExpired` call
`kill()`, then clear the handle; any exception from this sequence is
caught and logged, skipping the clearing statement. -/
def stop_video_qt (b : StopOutcome) (s : AppState) : AppState × List Action :=
  match s.process with
  | none => ({ s with isPlaying := false, status := "Ready" }, [])
  | some pid =>
    match b with
    | .terminateRaisesExn =>
      ({ s with isPlaying := false, status := "Ready" }, [.logInfo, .terminate pid, .logError])
    | .exitsInGrace =>
      ({ s with process := none, isPlaying := false, status := "Ready" },
       [.logInfo, .terminate pid, .waitGrace pid])
    | .timeoutThenKilled =>
      ({ s with process := none, isPlaying := false, status := "Ready" },
       [.logInfo, .terminate pid, .waitGrace pid, .kill pid])
    | .killRaisesExn =>
      ({ s with isPlaying := false, status := "Ready" },
       [.logInfo, .terminate pid, .waitGrace pid, .kill pid, .logError])

/-- Function `check_video_status` (both variants share this logic): if a process
is tracked and `poll()` reports an exit code (`pollResult = some code`),
log completion, clear the handle and reset the UI; otherwise do nothing
to the state.  No `terminate` call appears on any path.  (The tkinter
variant additionally re-arms its 1-second timer, and the two variants
set different status texts; neither difference touches the handle.) -/
def check_video_status (pollResult : Option Int) (s : AppState) : AppState × List Action :=
  match s.process with
  | none => (s, [])
  | some _ =>
    match pollResult with
    | some _ =>
      ({ s with process := none, isPlaying := false, status := "Ready" }, [.logInfo])
    | none => (s, [])

/-- The mpv argument list built by `play_video`
(both variants identical):
`[mpv_path, --fullscreen?, --loop-file=inf?, --really-quiet, url]`. -/
def buildCmd (mpvPath : String) (fullscreen loopVideo : Bool) (url : String) : List String :=
  [mpvPath] ++ (if fullscreen then ["--fullscreen"] else [])
    ++ (if loopVideo then ["--loop-file=inf"] else []) ++ ["--really-quiet", url]

/-- Python `str.strip()`: remove whitespace from both ends. -/
def pyStrip (s : String) : String :=
  ⟨((s.data.dropWhile Char.isWhitespace).reverse.dropWhile Char.isWhitespace).reverse⟩

/-- Function `play_video` of `main.py` (tkinter variant; the Qt variant differs
only in its inner `stop_video` and message wording): strip the input;
an empty or invalid URL is rejected with a warning log and an error
dialog before anything else happens; otherwise stop any current
playback, spawn mpv (`spawnFails` says whether `Popen` raises, in which
case the handler shows the error and the state keeps the result of the
stop), record the URL in the history and flip the UI to playing. -/
def play_video_tk (termRaises spawnFails : Bool) (newPid now : Nat)
    (titleOf : String → Option String) (mpvPath : String) (s : AppState) :
    AppState × List Action :=
  let url := pyStrip s.urlInput
  if url = "" then
    (s, [.logWarn, .showError "Please enter a URL"])
  else if validate_url url = false then
    (s, [.logWarn, .showError "Invalid YouTube URL format"])
  else
    let r1 := stop_video_tk termRaises s
    let cmd := buildCmd mpvPath s.fullscreen s.loopVideo url
    if spawnFails then
      (r1.1, r1.2 ++ [.logInfo, .spawn cmd, .logError, .showError "Playback Error"])
    else
      let s2 := { r1.1 with process := some newPid }
      let r2 := add_to_history now titleOf s2.maxHistory s2.history url
      ({ s2 with history := r2.1, histFile := some r2.2, isPlaying := true,
                 status := "Playing video..." },
       r1.2 ++ [.logInfo, .spawn cmd])

/-- Shared concrete `titleOf` argument for witnesses (the Qt variant's
behaviour: no title stored). -/
def noTitle : String → Option String := fun _ => none

/-- A concrete application state with a tracked playback process, used
by witnesses and counterexamples. -/
def sampleState : AppState :=
  { process := some 7, history := [], histFile := none, maxHistory := 10,
    urlInput := "", fullscreen := true, loopVideo := false,
    isPlaying := true, status := "Playing video..." }

/-! ## Lemmas about the history store -/

theorem lookupEntry_eq_none {h : History} {url : String} :
    lookupEntry h url = none ↔ url ∉ histKeys h := by
  induction h with
  | nil => simp [lookupEntry, histKeys]
  | cons p rest ih =>
    simp only [histKeys, List.map_cons, List.mem_cons, lookupEntry]
    by_cases hp : p.1 = url
    · simp [hp]
    · rw [if_neg hp, ih]
      constructor
      · intro hn hmem
        rcases hmem with heq | hmem
        · exact hp heq.symm
        · exact hn hmem
      · exact fun hn hmem => hn (Or.inr hmem)

theorem lookupEntry_mem {h : History} {url : String} {e : Entry}
    (hl : lookupEntry h url = some e) : (url, e) ∈ h := by
  induction h with
  | nil => simp [lookupEntry] at hl
  | cons p rest ih =>
    obtain ⟨a, b⟩ := p
    by_cases hp : a = url
    · rw [lookupEntry, if_pos hp] at hl
      injection hl with h2
      subst h2
      subst hp
      exact List.mem_cons_self _ _
    · rw [lookupEntry, if_neg hp] at hl
      exact List.mem_cons_of_mem _ (ih hl)

theorem lookupEntry_of_mem_nodup {h : History} {url : String} {e : Entry}
    (hnd : (histKeys h).Nodup) (hm : (url, e) ∈ h) : lookupEntry h url = some e := by
  induction h with
  | nil => cases hm
  | cons p rest ih =>
    rw [histKeys, List.map_cons, List.nodup_cons] at hnd
    rcases List.mem_cons.mp hm with heq | hmem
    · rw [← heq, lookupEntry, if_pos rfl]
    · have hp : p.1 ≠ url := by
        intro h1
        exact hnd.1 (h1 ▸ List.mem_map_of_mem Prod.fst hmem)
      rw [lookupEntry, if_neg hp]
      exact ih hnd.2 hmem

theorem lookupEntry_append_fresh {h : History} {url : String} (e : Entry)
    (hn : lookupEntry h url = none) : lookupEntry (h ++ [(url, e)]) url = some e := by
  induction h with
  | nil => simp [lookupEntry]
  | cons p rest ih =>
    rw [lookupEntry] at hn
    by_cases hp : p.1 = url
    · rw [if_pos hp] at hn; cases hn
    · rw [if_neg hp] at hn
      rw [List.cons_append, lookupEntry, if_neg hp]
      exact ih hn

theorem histKeys_updateEntry (h : History) (url : String) (e : Entry) :
    histKeys (updateEntry h url e) = histKeys h := by
  induction h with
  | nil => rfl
  | cons p rest ih =>
    simp only [updateEntry, histKeys, List.map_cons] at *
    by_cases hp : p.1 = url <;> simp [hp, ih]

theorem length_updateEntry (h : History) (url : String) (e : Entry) :
    (updateEntry h url e).length = h.length := by
  simp [updateEntry]

theorem lookupEntry_updateEntry {h : History} {url : String} {e0 : Entry} (e : Entry)
    (hl : lookupEntry h url = some e0) :
    lookupEntry (updateEntry h url e) url = some e := by
  induction h with
  | nil => cases hl
  | cons p rest ih =>
    by_cases hp : p.1 = url
    · simp [updateEntry, lookupEntry, hp]
    · rw [lookupEntry, if_neg hp] at hl
      simpa [updateEntry, lookupEntry, hp] using ih hl

theorem mem_addEntryStep_of_ne {now : Nat} {titleOf : String → Option String}
    {h : History} {url : String} {p : String × Entry}
    (hp : p ∈ addEntryStep now titleOf h url) (hne : p.1 ≠ url) : p ∈ h := by
  unfold addEntryStep at hp
  split at hp
  · rcases List.mem_append.mp hp with hmem | hmem
    · exact hmem
    · simp at hmem
      exact absurd (by rw [hmem]) hne
  · rcases List.mem_map.mp hp with ⟨q, hq, hfq⟩
    by_cases hq1 : q.1 = url
    · rw [if_pos hq1] at hfq
      exact absurd (by rw [← hfq, hq1]) hne
    · rw [if_neg hq1] at hfq
      exact hfq ▸ hq

theorem histKeys_nodup_addEntryStep {now : Nat} {titleOf : String → Option String}
    {h : History} {url : String} (hnd : (histKeys h).Nodup) :
    (histKeys (addEntryStep now titleOf h url)).Nodup := by
  unfold addEntryStep
  split
  · next hl =>
    have hfresh : url ∉ histKeys h := lookupEntry_eq_none.mp hl
    simp only [histKeys, List.map_append, List.map_cons, List.map_nil]
    rw [List.nodup_append]
    refine ⟨hnd, List.nodup_singleton url, ?_⟩
    intro a ha hb
    simp at hb
    exact hfresh (hb ▸ ha)
  · next e hl =>
    rw [show ∀ e', histKeys (updateEntry h url e') = histKeys h from
          fun e' => histKeys_updateEntry h url e']
    exact hnd

theorem length_addEntryStep_le (now : Nat) (titleOf : String → Option String)
    (h : History) (url : String) :
    (addEntryStep now titleOf h url).length ≤ h.length + 1 := by
  unfold addEntryStep
  split
  · simp
  · simp [updateEntry]

theorem evictOldest_eq_of_le {maxH : Nat} {h : History} (hle : h.length ≤ maxH) :
    evictOldest maxH h = h := by
  rw [evictOldest, if_neg (Nat.not_lt.mpr hle)]

theorem length_evictOldest_le (maxH : Nat) (h : History) :
    (evictOldest maxH h).length ≤ maxH := by
  rw [evictOldest]
  split
  · next hlt =>
    have hperm := List.perm_insertionSort tsLE h
    set P : String × Entry → Bool := fun p => decide (p.1 ∉ keysToRemove maxH h) with hP
    have hlen1 : (h.filter P).length = ((h.insertionSort tsLE).filter P).length :=
      ((hperm.filter P).length_eq).symm
    have hsplit := List.take_append_drop (h.length - maxH) (h.insertionSort tsLE)
    have htake : (((h.insertionSort tsLE).take (h.length - maxH)).filter P) = [] := by
      rw [List.filter_eq_nil_iff]
      intro p hp hPp
      have hmem : p.1 ∈ keysToRemove maxH h := List.mem_map_of_mem Prod.fst hp
      rw [hP] at hPp
      exact (of_decide_eq_true hPp) hmem
    calc (h.filter P).length
        = (((h.insertionSort tsLE).take (h.length - maxH) ++
            (h.insertionSort tsLE).drop (h.length - maxH)).filter P).length := by
          rw [hlen1, hsplit]
      _ = (((h.insertionSort tsLE).take (h.length - maxH)).filter P).length
          + (((h.insertionSort tsLE).drop (h.length - maxH)).filter P).length := by
          rw [List.filter_append, List.length_append]
      _ ≤ 0 + ((h.insertionSort tsLE).drop (h.length - maxH)).length := by
          rw [htake]
          exact Nat.add_le_add_left (List.length_filter_le _ _) 0
      _ ≤ maxH := by
          rw [List.length_drop, hperm.length_eq]
          omega
  · next hge => exact Nat.le_of_not_lt hge

theorem entryOfJson_entryToJson (e : Entry) : entryOfJson (entryToJson e) = some e := by
  obtain ⟨t, ts, pc⟩ := e
  cases t <;> rfl

theorem historyOfJson_historyToJson (h : History) :
    historyOfJson (historyToJson h) = some h := by
  induction h with
  | nil => rfl
  | cons p rest ih =>
    simp only [historyToJson, List.map_cons, historyOfJson, List.mapM_cons] at *
    rw [entryOfJson_entryToJson]
    rw [ih]
    rfl

theorem record_fresh {maxH now : Nat} {titleOf : String → Option String}
    {h : History} {url : String}
    (hn : lookupEntry h url = none) (hlen : h.length < maxH) :
    (add_to_history now titleOf maxH h url).1
      = h ++ [(url, ⟨titleOf url, now, 1⟩)] := by
  have hstep : addEntryStep now titleOf h url
      = h ++ [(url, ⟨titleOf url, now, 1⟩)] := by
    unfold addEntryStep
    rw [hn]
  show evictOldest maxH (addEntryStep now titleOf h url) = _
  rw [hstep, evictOldest_eq_of_le (by simp; omega)]

theorem record_existing {maxH now : Nat} {titleOf : String → Option String}
    {h : History} {url : String} {e : Entry}
    (hs : lookupEntry h url = some e) (hlen : h.length ≤ maxH) :
    (add_to_history now titleOf maxH h url).1
      = updateEntry h url ⟨e.title, now, e.playCount + 1⟩ := by
  have hstep : addEntryStep now titleOf h url
      = updateEntry h url ⟨e.title, now, e.playCount + 1⟩ := by
    unfold addEntryStep
    rw [hs]
  show evictOldest maxH (addEntryStep now titleOf h url) = _
  rw [hstep, evictOldest_eq_of_le (by rw [length_updateEntry]; exact hlen)]

/-! ## Claim theorems: history store -/

/-- Claim C8: persisting a history mapping to storage via
`save_history` and reloading it via `load_history` yields exactly the
mapping that was persisted — the same keys and, for each key, the same
title, timestamp and play count. -/
theorem save_then_load_returns_persisted_mapping (maxH : Nat) (h : History) :
    load_history (some (save_history maxH h).2) = (save_history maxH h).1 := by
  simp [load_history, save_history, historyOfJson_historyToJson]

/-- Claim C2 (amended): a `record` call (`add_to_history`) always leaves
the store at size at most `max_history` — the eviction inside
`save_history` even restores the bound from an oversized state — and
`clear_history` yields the empty store; but `load_history` performs no
truncation, returning the persisted mapping verbatim (or the empty
mapping when the file is missing or unreadable), so its result satisfies
the bound only when the persisted contents do — as any file written by
`save_history` with the same `max_history` does. -/
theorem history_size_bounded_by_operations (maxH now : Nat)
    (titleOf : String → Option String) (h : History) (url : String) :
    (add_to_history now titleOf maxH h url).1.length ≤ maxH ∧
    (clear_history maxH).1 = [] ∧
    (load_history (some (save_history maxH h).2)).length ≤ maxH ∧
    load_history none = [] := by
  refine ⟨length_evictOldest_le maxH _, rfl, ?_, rfl⟩
  simp only [load_history, save_history, historyOfJson_historyToJson, Option.getD_some]
  exact length_evictOldest_le maxH h

/-- Claim C2 is false as stated for the load operation: `load_history`
returns the persisted mapping verbatim without truncation, so a file
holding three entries loads as a store of size 3, violating the bound
for `max_history = 2`. -/
theorem load_ignores_size_bound_cex :
    ¬ (load_history (some (historyToJson
        [("a", ⟨none, 5, 1⟩), ("b", ⟨none, 6, 1⟩), ("c", ⟨none, 7, 1⟩)]))).length ≤ 2 := by
  decide

/-- Claim C1: with `max_history = 2`, recording three pairwise distinct
URLs in order (each a first play, timestamps non-decreasing) leaves the
store holding exactly the entries of the second and third URL: the
eviction step of the third `save_history` removes the
oldest-by-timestamp entry, which is the first URL. -/
theorem third_record_evicts_first_url
    (titleOf : String → Option String) (u1 u2 u3 : String) (t1 t2 t3 : Nat)
    (h12 : u1 ≠ u2) (h13 : u1 ≠ u3) (h23 : u2 ≠ u3)
    (ht12 : t1 ≤ t2) (ht23 : t2 ≤ t3) :
    (add_to_history t3 titleOf 2
      ((add_to_history t2 titleOf 2
        ((add_to_history t1 titleOf 2 [] u1).1) u2).1) u3).1
    = [(u2, ⟨titleOf u2, t2, 1⟩), (u3, ⟨titleOf u3, t3, 1⟩)] := by
  have e1 : (add_to_history t1 titleOf 2 [] u1).1
      = [(u1, ⟨titleOf u1, t1, 1⟩)] := rfl
  rw [e1]
  have e2 : (add_to_history t2 titleOf 2 [(u1, (⟨titleOf u1, t1, 1⟩ : Entry))] u2).1
      = [(u1, ⟨titleOf u1, t1, 1⟩), (u2, ⟨titleOf u2, t2, 1⟩)] := by
    have hl2 : lookupEntry [(u1, (⟨titleOf u1, t1, 1⟩ : Entry))] u2 = none := by
      simp [lookupEntry, h12]
    rw [record_fresh hl2 (by simp)]
    rfl
  rw [e2]
  have hl3 : lookupEntry [(u1, (⟨titleOf u1, t1, 1⟩ : Entry)),
      (u2, (⟨titleOf u2, t2, 1⟩ : Entry))] u3 = none := by
    simp [lookupEntry, h13, h23]
  show evictOldest 2 (addEntryStep t3 titleOf _ u3) = _
  have hstep : addEntryStep t3 titleOf [(u1, (⟨titleOf u1, t1, 1⟩ : Entry)),
      (u2, (⟨titleOf u2, t2, 1⟩ : Entry))] u3
      = [(u1, ⟨titleOf u1, t1, 1⟩), (u2, ⟨titleOf u2, t2, 1⟩),
         (u3, ⟨titleOf u3, t3, 1⟩)] := by
    unfold addEntryStep
    rw [hl3]
    rfl
  rw [hstep]
  simp [evictOldest, keysToRemove, List.insertionSort, List.orderedInsert, tsLE,
        ht12, ht23, List.filter, Ne.symm h12, Ne.symm h13, Ne.symm h23]

/-- Witness for claim C1 at concrete inputs. -/
theorem third_record_evicts_first_url_witness :
    (add_to_history 2 noTitle 2
      ((add_to_history 1 noTitle 2
        ((add_to_history 0 noTitle 2 [] "a").1) "b").1) "c").1
    = [("b", ⟨noTitle "b", 1, 1⟩), ("c", ⟨noTitle "c", 2, 1⟩)] :=
  third_record_evicts_first_url noTitle "a" "b" "c" 0 1 2
    (by decide) (by decide) (by decide) (by decide) (by decide)

/-- Claim C3: `add_to_history` inserts a fresh URL with `play_count = 1`
and the current timestamp, and for an existing URL increments
`play_count` by exactly one and replaces the timestamp with the current
one; recording the same URL twice takes the play count from 1 to 2 and
leaves the second timestamp.  The capacity hypotheses say the store is
below (respectively, within) its bound, so the eviction step running
inside the same call leaves the written entry in place (claim C10 covers
when eviction can touch the just-recorded entry). -/
theorem record_inserts_or_increments (now t1 t2 maxH : Nat)
    (titleOf : String → Option String) (h : History) (url : String) (e : Entry) :
    (lookupEntry h url = none → h.length < maxH →
      lookupEntry (add_to_history now titleOf maxH h url).1 url
        = some ⟨titleOf url, now, 1⟩) ∧
    (lookupEntry h url = some e → h.length ≤ maxH →
      lookupEntry (add_to_history now titleOf maxH h url).1 url
        = some ⟨e.title, now, e.playCount + 1⟩) ∧
    (lookupEntry h url = none → h.length < maxH →
      lookupEntry (add_to_history t2 titleOf maxH
          ((add_to_history t1 titleOf maxH h url).1) url).1 url
        = some ⟨titleOf url, t2, 2⟩) := by
  refine ⟨?_, ?_, ?_⟩
  · intro hn hlen
    rw [record_fresh hn hlen]
    exact lookupEntry_append_fresh _ hn
  · intro hs hlen
    rw [record_existing hs hlen]
    exact lookupEntry_updateEntry _ hs
  · intro hn hlen
    have h1eq : (add_to_history t1 titleOf maxH h url).1
        = h ++ [(url, ⟨titleOf url, t1, 1⟩)] := record_fresh hn hlen
    have hl1 : lookupEntry (add_to_history t1 titleOf maxH h url).1 url
        = some ⟨titleOf url, t1, 1⟩ := by
      rw [h1eq]
      exact lookupEntry_append_fresh _ hn
    have hlen1 : (add_to_history t1 titleOf maxH h url).1.length ≤ maxH := by
      rw [h1eq]
      simp
      omega
    rw [record_existing hl1 hlen1]
    exact lookupEntry_updateEntry _ hl1

/-- Witness for claim C3 at concrete inputs. -/
theorem record_inserts_or_increments_witness :
    lookupEntry (add_to_history 5 noTitle 2 [] "a").1 "a"
      = some ⟨noTitle "a", 5, 1⟩ ∧
    lookupEntry (add_to_history 6 noTitle 2 [("a", ⟨none, 5, 1⟩)] "a").1 "a"
      = some ⟨none, 6, 2⟩ ∧
    lookupEntry (add_to_history 6 noTitle 2
        ((add_to_history 5 noTitle 2 [] "a").1) "a").1 "a"
      = some ⟨noTitle "a", 6, 2⟩ :=
  ⟨(record_inserts_or_increments 5 0 0 2 noTitle [] "a" ⟨none, 0, 0⟩).1
      rfl (by decide),
   (record_inserts_or_increments 6 0 0 2 noTitle [("a", ⟨none, 5, 1⟩)] "a"
      ⟨none, 5, 1⟩).2.1 (by decide) (by decide),
   (record_inserts_or_increments 0 5 6 2 noTitle [] "a" ⟨none, 0, 0⟩).2.2
      rfl (by decide)⟩

/-- Claim C10 is false as stated: with `max_history = 1` and a store of
two entries both carrying timestamp 5, re-recording the first URL at
timestamp 5 (so no existing entry is strictly later than the written
one) evicts the just-recorded entry itself — the stable sort keeps the
re-recorded pair at its original first position among equal timestamps,
so it is selected for removal. -/
theorem tie_evicts_just_recorded_cex :
    1 ≥ 1 ∧
    (∀ p ∈ ([("a", ⟨none, 5, 1⟩), ("b", ⟨none, 5, 1⟩)] : History),
        p.2.timestamp ≤ 5) ∧
    lookupEntry (add_to_history 5 noTitle 1
        [("a", ⟨none, 5, 1⟩), ("b", ⟨none, 5, 1⟩)] "a").1 "a" = none := by
  decide

/-- Claim C10 (amended): if `max_history ≥ 1` and every entry for a
different URL carries a timestamp strictly earlier than the one being
written, then immediately after `add_to_history(url)` the store still
contains an entry for `url` bearing the new timestamp: eviction removes
only the first `len - max_history` entries of the stable
ascending-by-timestamp order, and under strict inequality the
just-recorded entry sorts last.  Strictness over other entries is forced
by the counterexample above: on a timestamp tie, a re-recorded existing
URL keeps its original position in the stable sort and can be evicted,
so the original "no entry strictly later" hypothesis is not enough. -/
theorem record_with_strictly_newest_timestamp_survives
    (maxH now : Nat) (titleOf : String → Option String) (h : History) (url : String)
    (hmax : 1 ≤ maxH) (hnd : (histKeys h).Nodup)
    (hts : ∀ p ∈ h, p.1 ≠ url → p.2.timestamp < now) :
    ∃ e : Entry,
      lookupEntry (add_to_history now titleOf maxH h url).1 url = some e ∧
      e.timestamp = now := by
  set h1 := addEntryStep now titleOf h url with hh1
  have hA : ∃ eN : Entry, lookupEntry h1 url = some eN ∧ eN.timestamp = now := by
    rw [hh1]
    unfold addEntryStep
    cases hcase : lookupEntry h url with
    | none => exact ⟨_, lookupEntry_append_fresh _ hcase, rfl⟩
    | some e0 => exact ⟨_, lookupEntry_updateEntry _ hcase, rfl⟩
  obtain ⟨eN, heN, heNts⟩ := hA
  have hnd1 : (histKeys h1).Nodup := histKeys_nodup_addEntryStep hnd
  have hts1 : ∀ p ∈ h1, p.1 ≠ url → p.2.timestamp < now := fun p hp hne =>
    hts p (mem_addEntryStep_of_ne hp hne) hne
  show ∃ e, lookupEntry (evictOldest maxH h1) url = some e ∧ e.timestamp = now
  by_cases hlen : h1.length ≤ maxH
  · rw [evictOldest_eq_of_le hlen]
    exact ⟨eN, heN, heNts⟩
  · have hlt : maxH < h1.length := Nat.lt_of_not_le hlen
    unfold evictOldest
    rw [if_pos hlt]
    have hperm := List.perm_insertionSort tsLE h1
    have hnotin : url ∉ keysToRemove maxH h1 := by
      intro hmem
      obtain ⟨q, hqtake, hq1⟩ := List.mem_map.mp hmem
      have hqsorted : q ∈ h1.insertionSort tsLE := List.mem_of_mem_take hqtake
      have hqh1 : q ∈ h1 := hperm.mem_iff.mp hqsorted
      have hq2 : q.2 = eN := by
        have hqmem : (url, q.2) ∈ h1 := by
          rw [← hq1]
          exact hqh1
        have hlq := lookupEntry_of_mem_nodup hnd1 hqmem
        exact Option.some.inj (hlq.symm.trans heN)
      have hdroplen : 0 < ((h1.insertionSort tsLE).drop (h1.length - maxH)).length := by
        rw [List.length_drop, hperm.length_eq]
        omega
      obtain ⟨z, hzdrop⟩ := List.exists_mem_of_length_pos hdroplen
      have hzsorted : z ∈ h1.insertionSort tsLE := List.mem_of_mem_drop hzdrop
      have hzh1 : z ∈ h1 := hperm.mem_iff.mp hzsorted
      have hsort : List.Sorted tsLE (h1.insertionSort tsLE) :=
        List.sorted_insertionSort tsLE h1
      have hsplit : (h1.insertionSort tsLE).take (h1.length - maxH) ++
          (h1.insertionSort tsLE).drop (h1.length - maxH) = h1.insertionSort tsLE :=
        List.take_append_drop _ _
      have hsort' : List.Pairwise tsLE ((h1.insertionSort tsLE).take (h1.length - maxH) ++
          (h1.insertionSort tsLE).drop (h1.length - maxH)) := by
        rw [hsplit]
        exact hsort
      have hrel : tsLE q z :=
        (List.pairwise_append.mp hsort').2.2 q hqtake z hzdrop
      have hzne : z.1 ≠ url := by
        intro hz1
        have hkeysnd : ((h1.insertionSort tsLE).map Prod.fst).Nodup :=
          ((hperm.map Prod.fst).nodup_iff).mpr hnd1
        have hu1 : url ∈ ((h1.insertionSort tsLE).take (h1.length - maxH)).map Prod.fst := by
          rw [← hq1]
          exact List.mem_map_of_mem Prod.fst hqtake
        have hu2 : url ∈ ((h1.insertionSort tsLE).drop (h1.length - maxH)).map Prod.fst := by
          rw [← hz1]
          exact List.mem_map_of_mem Prod.fst hzdrop
        have happ : ((h1.insertionSort tsLE).take (h1.length - maxH)).map Prod.fst ++
            ((h1.insertionSort tsLE).drop (h1.length - maxH)).map Prod.fst
            = (h1.insertionSort tsLE).map Prod.fst := by
          rw [← List.map_append, hsplit]
        rw [← happ] at hkeysnd
        exact (List.nodup_append.mp hkeysnd).2.2 hu1 hu2
      have hlt2 : z.2.timestamp < now := hts1 z hzh1 hzne
      have hge2 : now ≤ z.2.timestamp := by
        have h4 : q.2.timestamp ≤ z.2.timestamp := hrel
        rw [hq2, heNts] at h4
        exact h4
      omega
    refine ⟨eN, ?_, heNts⟩
    have hmemfilter : (url, eN) ∈
        h1.filter (fun p => decide (p.1 ∉ keysToRemove maxH h1)) :=
      List.mem_filter.mpr ⟨lookupEntry_mem heN, decide_eq_true hnotin⟩
    have hndfilter :
        (histKeys (h1.filter (fun p => decide (p.1 ∉ keysToRemove maxH h1)))).Nodup := by
      have hsub : List.Sublist
          (h1.filter (fun p => decide (p.1 ∉ keysToRemove maxH h1))) h1 :=
        List.filter_sublist h1
      exact List.Nodup.sublist (hsub.map Prod.fst) hnd1
    exact lookupEntry_of_mem_nodup hndfilter hmemfilter

/-- Witness for the amended claim C10 at concrete inputs. -/
theorem record_survives_witness :
    ∃ e : Entry,
      lookupEntry (add_to_history 5 noTitle 1 [("b", ⟨none, 3, 1⟩)] "a").1 "a"
        = some e ∧ e.timestamp = 5 :=
  record_with_strictly_newest_timestamp_survives 1 5 noTitle
    [("b", ⟨none, 3, 1⟩)] "a" (by decide) (by decide) (by decide)

/-! ## Claim theorems: process controller -/

/-- Claim C5 is false as stated: when `terminate()` raises, the
exception handler in both variants only logs — the statement clearing
the handle sits inside the `try` and is skipped — so the tracked handle
is NOT cleared and the session does not return to Idle. -/
theorem stop_failure_keeps_handle_cex :
    (stop_video_qt .terminateRaisesExn sampleState).1.process = some 7 ∧
    (stop_video_tk true sampleState).1.process = some 7 ∧
    ¬ ((stop_video_qt .terminateRaisesExn sampleState).1.process = none) := by
  refine ⟨rfl, rfl, ?_⟩
  simp [stop_video_qt, sampleState]

/-- Claim C5 (amended): `stop` requests graceful termination and never
propagates a termination failure (the operation always completes,
failures are only logged); the Qt variant waits up to the 5-second
grace window and force-kills exactly when the wait times out, while the
tkinter variant neither waits nor kills; in every non-raising outcome
the tracked handle is cleared — but when `terminate()` (or the fallback
`kill()`) raises, the handle is NOT cleared. -/
theorem stop_video_behaviour (s : AppState) (pid : Nat) (b : StopOutcome)
    (hp : s.process = some pid) :
    ((stop_video_qt b s).1.process = none ↔
      (b = .exitsInGrace ∨ b = .timeoutThenKilled)) ∧
    ((b = .terminateRaisesExn ∨ b = .killRaisesExn) →
      (stop_video_qt b s).1.process = some pid) ∧
    (Action.kill pid ∈ (stop_video_qt b s).2 ↔
      (b = .timeoutThenKilled ∨ b = .killRaisesExn)) ∧
    Action.terminate pid ∈ (stop_video_qt b s).2 ∧
    (stop_video_tk false s).1.process = none ∧
    (stop_video_tk true s).1.process = some pid ∧
    (∀ q c, Action.kill q ∉ (stop_video_tk c s).2 ∧
            Action.waitGrace q ∉ (stop_video_tk c s).2) := by
  cases b <;> simp [stop_video_qt, stop_video_tk, hp]

/-- Witness for the amended claim C5 at concrete inputs. -/
theorem stop_video_behaviour_witness :
    (stop_video_qt .timeoutThenKilled sampleState).1.process = none ∧
    Action.kill 7 ∈ (stop_video_qt .timeoutThenKilled sampleState).2 :=
  ⟨(stop_video_behaviour sampleState 7 .timeoutThenKilled rfl).1.mpr (Or.inr rfl),
   (stop_video_behaviour sampleState 7 .timeoutThenKilled rfl).2.2.1.mpr (Or.inl rfl)⟩

/-- Claim C6: an input that is empty after stripping, or that fails
validation, is rejected synchronously: an error dialog is shown, the
returned state is exactly the input state (handle untouched, history
unmodified, nothing persisted), and no terminate, kill or spawn call is
made. -/
theorem invalid_input_rejected_without_state_change
    (termRaises spawnFails : Bool) (newPid now : Nat)
    (titleOf : String → Option String) (mpvPath : String) (s : AppState)
    (hbad : pyStrip s.urlInput = "" ∨ validate_url (pyStrip s.urlInput) = false) :
    (play_video_tk termRaises spawnFails newPid now titleOf mpvPath s).1 = s ∧
    (∃ msg, Action.showError msg ∈
      (play_video_tk termRaises spawnFails newPid now titleOf mpvPath s).2) ∧
    (∀ a ∈ (play_video_tk termRaises spawnFails newPid now titleOf mpvPath s).2,
      (∀ pid, a ≠ .terminate pid) ∧ (∀ pid, a ≠ .kill pid) ∧
      (∀ cmd, a ≠ .spawn cmd)) := by
  have hres : ∃ msg, play_video_tk termRaises spawnFails newPid now titleOf mpvPath s
      = (s, [.logWarn, .showError msg]) := by
    by_cases hempty : pyStrip s.urlInput = ""
    · exact ⟨"Please enter a URL", by simp [play_video_tk, hempty]⟩
    · rcases hbad with h1 | h2
      · exact absurd h1 hempty
      · exact ⟨"Invalid YouTube URL format", by simp [play_video_tk, hempty, h2]⟩
  obtain ⟨msg, hres⟩ := hres
  rw [hres]
  refine ⟨rfl, ⟨msg, by simp⟩, ?_⟩
  intro a ha
  simp at ha
  rcases ha with ha | ha <;> subst ha <;>
    exact ⟨fun pid => by simp, fun pid => by simp, fun cmd => by simp⟩

/-- Witness for claim C6 at a concrete invalid input. -/
theorem invalid_input_rejected_witness :
    (play_video_tk false false 3 0 noTitle "mpv"
      { sampleState with urlInput := "https://vimeo.com/12345" }).1
    = { sampleState with urlInput := "https://vimeo.com/12345" } :=
  (invalid_input_rejected_without_state_change false false 3 0 noTitle "mpv"
    { sampleState with urlInput := "https://vimeo.com/12345" }
    (Or.inr (by decide))).1

/-- Claim C7: when the tracked process has exited on its own (`poll()`
returns an exit code), the liveness poll clears the tracked handle; no
path of the poll ever calls `terminate`; and when the process has not
exited (`poll()` returns `None`) or no process is tracked, the state is
left unchanged. -/
theorem poll_clears_handle_only_on_exit (s : AppState) (pollResult : Option Int) :
    (s.process ≠ none → pollResult ≠ none →
      (check_video_status pollResult s).1.process = none) ∧
    (∀ q, Action.terminate q ∉ (check_video_status pollResult s).2) ∧
    (pollResult = none → (check_video_status pollResult s).1 = s) ∧
    (s.process = none → (check_video_status pollResult s).1 = s) := by
  cases hs : s.process <;> cases hpoll : pollResult <;>
    simp [check_video_status, hs, hpoll]

/-- Witness for claim C7 at concrete inputs. -/
theorem poll_clears_handle_only_on_exit_witness :
    (check_video_status (some 0) sampleState).1.process = none ∧
    (check_video_status none sampleState).1 = sampleState :=
  ⟨(poll_clears_handle_only_on_exit sampleState (some 0)).1
      (by decide) (by decide),
   (poll_clears_handle_only_on_exit sampleState none).2.2.1 rfl⟩

/-! ## Correctness of the derivative matcher -/

theorem zero_not_matches {xs : List Char} : ¬ (Re.zero).Matches xs := by
  intro h
  cases h

theorem eps_matches {xs : List Char} : (Re.eps).Matches xs ↔ xs = [] := by
  constructor
  · intro h
    cases h
    rfl
  · rintro rfl
    exact Re.Matches.eps

theorem cls_matches {p : Char → Bool} {xs : List Char} :
    (Re.cls p).Matches xs ↔ ∃ c, xs = [c] ∧ p c = true := by
  constructor
  · intro h
    cases h with
    | cls hc => exact ⟨_, rfl, hc⟩
  · rintro ⟨c, rfl, hc⟩
    exact Re.Matches.cls hc

theorem cat_matches {a b : Re} {xs : List Char} :
    (Re.cat a b).Matches xs ↔ ∃ u v, xs = u ++ v ∧ a.Matches u ∧ b.Matches v := by
  constructor
  · intro h
    cases h with
    | cat hu hv => exact ⟨_, _, rfl, hu, hv⟩
  · rintro ⟨u, v, rfl, hu, hv⟩
    exact Re.Matches.cat hu hv

theorem alt_matches {a b : Re} {xs : List Char} :
    (Re.alt a b).Matches xs ↔ a.Matches xs ∨ b.Matches xs := by
  constructor
  · intro h
    cases h with
    | altL hu => exact Or.inl hu
    | altR hv => exact Or.inr hv
  · rintro (h | h)
    · exact Re.Matches.altL h
    · exact Re.Matches.altR h

theorem nullable_iff {r : Re} : r.nullable = true ↔ r.Matches [] := by
  induction r with
  | zero => simp [Re.nullable, zero_not_matches]
  | eps => simpa [Re.nullable] using Re.Matches.eps
  | cls p => simp [Re.nullable, cls_matches]
  | cat a b iha ihb =>
    rw [Re.nullable, Bool.and_eq_true, iha, ihb, cat_matches]
    constructor
    · rintro ⟨ha, hb⟩
      exact ⟨[], [], rfl, ha, hb⟩
    · rintro ⟨u, v, huv, ha, hb⟩
      obtain ⟨hu, hv⟩ := List.append_eq_nil.mp huv.symm
      subst hu
      subst hv
      exact ⟨ha, hb⟩
  | alt a b iha ihb => rw [Re.nullable, Bool.or_eq_true, iha, ihb, alt_matches]
  | star a ih => simpa [Re.nullable] using Re.Matches.starNil

theorem deriv_sound {r : Re} {c : Char} {cs : List Char}
    (h : (r.deriv c).Matches cs) : r.Matches (c :: cs) := by
  induction r generalizing cs with
  | zero => exact absurd h zero_not_matches
  | eps => exact absurd h zero_not_matches
  | cls p =>
    rw [Re.deriv] at h
    by_cases hp : p c = true
    · rw [if_pos hp] at h
      obtain rfl := eps_matches.mp h
      exact Re.Matches.cls hp
    · rw [if_neg hp] at h
      exact absurd h zero_not_matches
  | cat a b iha ihb =>
    rw [Re.deriv] at h
    by_cases hn : a.nullable = true
    · rw [if_pos hn] at h
      rcases alt_matches.mp h with h1 | h2
      · obtain ⟨u, v, rfl, hu, hv⟩ := cat_matches.mp h1
        exact Re.Matches.cat (iha hu) hv
      · exact Re.Matches.cat (nullable_iff.mp hn) (ihb h2)
    · rw [if_neg hn] at h
      obtain ⟨u, v, rfl, hu, hv⟩ := cat_matches.mp h
      exact Re.Matches.cat (iha hu) hv
  | alt a b iha ihb =>
    rw [Re.deriv] at h
    rcases alt_matches.mp h with h1 | h2
    · exact Re.Matches.altL (iha h1)
    · exact Re.Matches.altR (ihb h2)
  | star a ih =>
    rw [Re.deriv] at h
    obtain ⟨u, v, rfl, hu, hv⟩ := cat_matches.mp h
    exact Re.Matches.starCons (ih hu) hv

theorem deriv_complete {r : Re} {c : Char} {cs : List Char}
    (h : r.Matches (c :: cs)) : (r.deriv c).Matches cs := by
  generalize hxs : c :: cs = xs at h
  induction h generalizing cs with
  | eps => exact List.noConfusion hxs
  | cls hp =>
    injection hxs with h1 h2
    subst h1
    subst h2
    rw [Re.deriv, if_pos hp]
    exact Re.Matches.eps
  | cat hu hv ihu ihv =>
    rename_i a b u v
    cases u with
    | nil =>
      rw [List.nil_append] at hxs
      have hn : a.nullable = true := nullable_iff.mpr hu
      rw [Re.deriv, if_pos hn]
      exact Re.Matches.altR (ihv hxs)
    | cons x u1 =>
      rw [List.cons_append] at hxs
      injection hxs with h1 h2
      subst h1
      subst h2
      have hdu := ihu rfl
      rw [Re.deriv]
      by_cases hn : a.nullable = true
      · rw [if_pos hn]
        exact Re.Matches.altL (Re.Matches.cat hdu hv)
      · rw [if_neg hn]
        exact Re.Matches.cat hdu hv
  | altL hu ihu =>
    rw [Re.deriv]
    exact Re.Matches.altL (ihu hxs)
  | altR hv ihv =>
    rw [Re.deriv]
    exact Re.Matches.altR (ihv hxs)
  | starNil => exact List.noConfusion hxs
  | starCons hu hv ihu ihv =>
    rename_i a u v
    cases u with
    | nil =>
      rw [List.nil_append] at hxs
      exact ihv hxs
    | cons x u1 =>
      rw [List.cons_append] at hxs
      injection hxs with h1 h2
      subst h1
      subst h2
      rw [Re.deriv]
      exact Re.Matches.cat (ihu rfl) hv

theorem matchStart_iff {r : Re} {cs : List Char} :
    r.matchStart cs = true ↔ ∃ xs ys, cs = xs ++ ys ∧ r.Matches xs := by
  induction cs generalizing r with
  | nil =>
    rw [Re.matchStart]
    constructor
    · intro h
      exact ⟨[], [], rfl, nullable_iff.mp h⟩
    · rintro ⟨xs, ys, hxy, hm⟩
      obtain ⟨rfl, rfl⟩ := List.append_eq_nil.mp hxy.symm
      exact nullable_iff.mpr hm
  | cons c cs ih =>
    rw [Re.matchStart, Bool.or_eq_true]
    constructor
    · rintro (h | h)
      · exact ⟨[], c :: cs, rfl, nullable_iff.mp h⟩
      · obtain ⟨xs, ys, rfl, hm⟩ := ih.mp h
        exact ⟨c :: xs, ys, rfl, deriv_sound hm⟩
    · rintro ⟨xs, ys, hxy, hm⟩
      cases xs with
      | nil =>
        rw [List.nil_append] at hxy
        exact Or.inl (nullable_iff.mpr hm)
      | cons x xs1 =>
        rw [List.cons_append] at hxy
        injection hxy with h1 h2
        subst h1
        exact Or.inr (ih.mpr ⟨xs1, ys, h2, deriv_complete hm⟩)

/-! ## The languages of the five pattern pieces -/

theorem litList_matches {t : List Char} {xs : List Char} :
    (litList t).Matches xs ↔ xs = t := by
  induction t generalizing xs with
  | nil => rw [litList]; exact eps_matches
  | cons c t1 ih =>
    rw [litList, cat_matches]
    constructor
    · rintro ⟨u, v, rfl, hu, hv⟩
      obtain ⟨c1, rfl, hc⟩ := cls_matches.mp hu
      have hc1 : c1 = c := by simpa using hc
      subst hc1
      rw [ih.mp hv]
      rfl
    · rintro rfl
      exact ⟨[c], t1, rfl, Re.Matches.cls (by simp), ih.mpr rfl⟩

theorem optRe_matches {r : Re} {xs : List Char} :
    (optRe r).Matches xs ↔ r.Matches xs ∨ xs = [] := by
  rw [optRe, alt_matches, eps_matches]

theorem star_cls_all {r : Re} {xs : List Char} (h : r.Matches xs) :
    ∀ p : Char → Bool, r = Re.star (Re.cls p) → ∀ c ∈ xs, p c = true := by
  induction h with
  | eps => intro p hr; cases hr
  | cls hp => intro p hr; cases hr
  | cat hu hv ihu ihv => intro p hr; cases hr
  | altL hu ihu => intro p hr; cases hr
  | altR hv ihv => intro p hr; cases hr
  | starNil =>
    intro p hr c hc
    cases hc
  | starCons hu hv ihu ihv =>
    intro p hr c hc
    injection hr with ha
    subst ha
    rcases List.mem_append.mp hc with hc1 | hc2
    · obtain ⟨c0, rfl, hc0⟩ := cls_matches.mp hu
      rw [List.mem_singleton] at hc1
      subst hc1
      exact hc0
    · exact ihv p rfl c hc2

theorem starCls_matches {p : Char → Bool} {xs : List Char} :
    (Re.star (Re.cls p)).Matches xs ↔ ∀ c ∈ xs, p c = true := by
  constructor
  · intro h
    exact star_cls_all h p rfl
  · intro h
    induction xs with
    | nil => exact Re.Matches.starNil
    | cons c cs ih =>
      exact Re.Matches.starCons
        (Re.Matches.cls (h c (List.mem_cons_self c cs)))
        (ih (fun c1 hc1 => h c1 (List.mem_cons_of_mem c hc1)))

theorem plusCls_matches {p : Char → Bool} {xs : List Char} :
    (plusCls p).Matches xs ↔ xs ≠ [] ∧ ∀ c ∈ xs, p c = true := by
  rw [plusCls, cat_matches]
  constructor
  · rintro ⟨u, v, rfl, hu, hv⟩
    obtain ⟨c, rfl, hc⟩ := cls_matches.mp hu
    refine ⟨by simp, ?_⟩
    intro c1 hc1
    rcases List.mem_cons.mp hc1 with rfl | hmem
    · exact hc
    · exact starCls_matches.mp hv c1 hmem
  · rintro ⟨hne, hall⟩
    cases xs with
    | nil => exact absurd rfl hne
    | cons c cs =>
      exact ⟨[c], cs, rfl, Re.Matches.cls (hall c (List.mem_cons_self c cs)),
        starCls_matches.mpr (fun c1 hc1 => hall c1 (List.mem_cons_of_mem c hc1))⟩

theorem schemeRe_matches {xs : List Char} :
    schemeRe.Matches xs ↔ xs = [] ∨ xs = "http://".data ∨ xs = "https://".data := by
  rw [schemeRe, optRe_matches, cat_matches]
  constructor
  · rintro (⟨u, v, rfl, hu, hv⟩ | rfl)
    · rw [lit, litList_matches] at hu
      subst hu
      rw [cat_matches] at hv
      obtain ⟨w, z, rfl, hw, hz⟩ := hv
      rw [lit, litList_matches] at hz
      subst hz
      rw [optRe_matches, lit, litList_matches] at hw
      rcases hw with rfl | rfl
      · right; right; decide
      · right; left; decide
    · left; rfl
  · rintro (rfl | rfl | rfl)
    · exact Or.inr rfl
    · refine Or.inl ⟨"http".data, "://".data, by decide, ?_, ?_⟩
      · rw [lit]; exact litList_matches.mpr rfl
      · refine cat_matches.mpr ⟨[], "://".data, rfl, optRe_matches.mpr (Or.inr rfl), ?_⟩
        rw [lit]; exact litList_matches.mpr rfl
    · refine Or.inl ⟨"http".data, "s://".data, by decide, ?_, ?_⟩
      · rw [lit]; exact litList_matches.mpr rfl
      · refine cat_matches.mpr ⟨"s".data, "://".data, by decide, ?_, ?_⟩
        · exact optRe_matches.mpr (Or.inl (by rw [lit]; exact litList_matches.mpr rfl))
        · rw [lit]; exact litList_matches.mpr rfl

theorem wwwRe_matches {xs : List Char} :
    wwwRe.Matches xs ↔ xs = [] ∨ xs = "www.".data := by
  rw [wwwRe, optRe_matches, lit, litList_matches]
  tauto

theorem shapeRe_matchStart {head : String} {ec : Char} {s : List Char} :
    (shapeRe head ec).matchStart s = true ↔
    ∃ sch ww id rest,
      (sch = [] ∨ sch = "http://".data ∨ sch = "https://".data) ∧
      (ww = [] ∨ ww = "www.".data) ∧
      id ≠ [] ∧ (∀ c ∈ id, wordDash c = true) ∧
      s = sch ++ (ww ++ (head.data ++ (id ++ rest))) := by
  rw [matchStart_iff]
  constructor
  · rintro ⟨xs, ys, rfl, hm⟩
    rw [shapeRe, cat_matches] at hm
    obtain ⟨sch, r1, rfl, hsch, hm⟩ := hm
    rw [cat_matches] at hm
    obtain ⟨ww, r2, rfl, hww, hm⟩ := hm
    rw [cat_matches] at hm
    obtain ⟨hd, r3, rfl, hhd, hm⟩ := hm
    rw [lit, litList_matches] at hhd
    subst hhd
    rw [cat_matches] at hm
    obtain ⟨id, ext, rfl, hid, hext⟩ := hm
    rw [plusCls_matches] at hid
    refine ⟨sch, ww, id, ext ++ ys, schemeRe_matches.mp hsch, wwwRe_matches.mp hww,
      hid.1, hid.2, ?_⟩
    simp [List.append_assoc]
  · rintro ⟨sch, ww, id, rest, hsch, hww, hidne, hidall, rfl⟩
    refine ⟨sch ++ (ww ++ (head.data ++ id)), rest, by simp [List.append_assoc], ?_⟩
    rw [shapeRe]
    refine cat_matches.mpr ⟨sch, ww ++ (head.data ++ id), rfl,
      schemeRe_matches.mpr hsch, ?_⟩
    refine cat_matches.mpr ⟨ww, head.data ++ id, rfl, wwwRe_matches.mpr hww, ?_⟩
    refine cat_matches.mpr ⟨head.data, id, rfl, by rw [lit]; exact litList_matches.mpr rfl, ?_⟩
    refine cat_matches.mpr ⟨id, [], (List.append_nil id).symm,
      plusCls_matches.mpr ⟨hidne, hidall⟩, optRe_matches.mpr (Or.inr rfl)⟩

theorem shapeRe_matchStart_iff_spec {head : String} {ec : Char} {s : String} :
    (shapeRe head ec).matchStart s.data = true ↔ SpecShape head s := by
  rw [shapeRe_matchStart, SpecShape]
  constructor
  · rintro ⟨sch, ww, id, rest, h1, h2, h3, h4, h5⟩
    exact ⟨sch, ww, id, rest, h1, h2, h3, h4, by rw [h5]; simp [List.append_assoc]⟩
  · rintro ⟨sch, ww, id, rest, h1, h2, h3, h4, h5⟩
    exact ⟨sch, ww, id, rest, h1, h2, h3, h4, by rw [h5]; simp [List.append_assoc]⟩

/-! ## Claim theorems: URL validator -/

/-- Claim C4: `validate_url` returns true exactly when some initial
segment of the string matches one of the five accepted link shapes —
optional scheme, optional `www.`, a shape head, at least one word
character — with anything allowed to follow (trailing garbage is
accepted, a consequence of `re.match` being a non-exhaustive anchored
match); a string with no such initial segment, such as
`https://vimeo.com/12345`, is rejected. -/
theorem validator_accepts_exactly_spec_shapes :
    (∀ s : String, validate_url s = true ↔ IsValidSpec s) ∧
    validate_url "https://vimeo.com/12345" = false := by
  refine ⟨?_, by decide⟩
  intro s
  simp only [validate_url, patternsTk, List.any_cons, List.any_nil,
             Bool.or_eq_true, Bool.or_false]
  simp only [shapeRe_matchStart_iff_spec]
  constructor
  · rintro (h | h | h | h | h)
    · exact ⟨_, by decide, h⟩
    · exact ⟨_, by decide, h⟩
    · exact ⟨_, by decide, h⟩
    · exact ⟨_, by decide, h⟩
    · exact ⟨_, by decide, h⟩
  · rintro ⟨head, hmem, h⟩
    simp only [shapeHeads, List.mem_cons, List.not_mem_nil, or_false] at hmem
    rcases hmem with rfl | rfl | rfl | rfl | rfl
    · exact Or.inl h
    · exact Or.inr (Or.inl h)
    · exact Or.inr (Or.inr (Or.inl h))
    · exact Or.inr (Or.inr (Or.inr (Or.inl h)))
    · exact Or.inr (Or.inr (Or.inr (Or.inr h)))

/-- Witness for claim C4: a concrete accepted string satisfies the
spec-side shape description. -/
theorem validator_accepts_exactly_spec_shapes_witness :
    IsValidSpec "youtu.be/abc123?t=5" :=
  (validator_accepts_exactly_spec_shapes.1 "youtu.be/abc123?t=5").mp (by decide)

/-- Claim C9: the URL validators of the two parallel implementations are
extensionally equal — their pattern lists are textually identical, so
the two functions agree on every input string. -/
theorem validators_extensionally_equal :
    ∀ u : String, validate_url u = validate_url_qt u :=
  fun _ => rfl

end YTPlayer
